import Mathlib

/-!
Verification development for the cashscript IR core: the stack-shape
simulating IR generator, the peephole optimizer, and the literal-push
assembler, checked against the repository's IR test expectations
(`IR.test.ts`: the six fixture contracts and their expected IR sequences
and final surviving stacks).

The generator, optimizer and assembler sources are not part of the
provided source tree (only the test file that pins down their behaviour
is), so those components are modelled from the specification and
validated by reproducing every test-expected IR sequence and final
stack exactly.
-/

namespace CashIR

/-- Modelled from the spec: the operator / global-function identities of
`src/ast/Globals` and `src/ast/Operator` that the arity table keys on
(§4.2, §4.3).  `CHECKMULTISIG` carries its statically known signature and
key counts, since its stack effect is "a variable but statically-known
count derived from literal count arguments". -/
inductive Fn where
  | SHA256
  | RIPEMD160
  | REQUIRE
  | CHECKSIG
  | CHECKMULTISIG (m n : Nat)
  | CHECK_LOCKTIME
  | EQ
  | PLUS
  | MINUS
  | MOD
  | GT
  deriving DecidableEq, Repr

/-- Modelled from the spec: the fixed arity table (pop-count, push-count)
of §4.2/§4.3: hashes pop 1 push 1, signature checks pop 2 push 1, binary
operators pop 2 push 1, `REQUIRE` pops 1 and pushes nothing, the locktime
check pops 1 and pushes no result, and the multi-signature check pops its
statically known `m` signatures and `n` keys plus the two count literals. -/
def arity : Fn → Nat × Nat
  | .SHA256 => (1, 1)
  | .RIPEMD160 => (1, 1)
  | .REQUIRE => (1, 0)
  | .CHECKSIG => (2, 1)
  | .CHECKMULTISIG m n => (m + n + 2, 1)
  | .CHECK_LOCKTIME => (1, 0)
  | .EQ => (2, 1)
  | .PLUS => (2, 1)
  | .MINUS => (2, 1)
  | .MOD => (2, 1)
  | .GT => (2, 1)

/-- Modelled from the spec: the IR instruction vocabulary of
`src/ir/IR` (§4.2) as imported by the test file: literal pushes,
depth-relative `Get`/`Replace`, `Drop`, operator calls and the three
branch markers. -/
inductive Op where
  | PushInt (n : Int)
  | PushString (s : String)
  | Get (d : Nat)
  | Replace (d : Nat)
  | Drop (n : Nat)
  | Call (f : Fn)
  | If
  | Else
  | EndIf
  deriving DecidableEq, Repr

/-- Modelled from the spec: one named entry of the compile-time stack
simulation (§3): a declaration identity (`none` for anonymous
temporaries and the synthetic discriminant) and a display name. -/
structure Slot where
  id : Option Nat
  name : String
  deriving DecidableEq, Repr

/-- An anonymous temporary slot occupied by an intermediate expression
value. -/
def tmp : Slot := ⟨none, ""⟩

/-- The synthetic discriminant slot of multi-function dispatch,
conventionally displayed as a placeholder. -/
def dollarSlot : Slot := ⟨none, "$$"⟩

/-- Modelled from the spec: `depthOf` of the Stack Model (§4.1), the
distance from the top of the slot bound to a declaration identity,
recomputed at the moment of the query.  The head of the list is the top
of the stack. -/
def depthOf (v : Nat) (stk : List Slot) : Option Nat :=
  stk.findIdx? (fun s => s.id = some v)

/-- Modelled from the spec: the typed expression forms the fixture
contracts exercise, with every variable reference carrying its resolved
declaration identity (§6). -/
inductive Expr where
  | intE (n : Int)
  | strE (s : String)
  | varE (v : Nat)
  | bin (f : Fn) (l r : Expr)
  | hash (f : Fn) (e : Expr)
  | multiSig (sigs keys : List Nat)
  deriving DecidableEq, Repr

/-- Modelled from the spec: the statement forms of the fixture
contracts: declaration with initializer, reassignment, `require`,
the self-verifying locktime check, and the two-armed branch (§4.3). -/
inductive Stmt where
  | decl (v : Nat) (nm : String) (e : Expr)
  | assign (v : Nat) (e : Expr)
  | requireS (e : Expr)
  | timeChk (e : Expr)
  | branch (cond : Expr) (thn : List Stmt) (els : Option (List Stmt))

/-- Generates the `Get` list for a list of variable references, each
generated with the previously pushed values on the model. -/
def genRefs : List Nat → List Slot → Option (List Op × List Slot)
  | [], stk => some ([], stk)
  | v :: vs, stk => do
      let d ← depthOf v stk
      let (c, stk') ← genRefs vs (tmp :: stk)
      pure (Op.Get d :: c, stk')

/-- Modelled from the spec: expression generation of the IR generator
(`src/ir/GenerateIrTraversal`, §4.3): a left-to-right depth-first walk
that emits `Get(depthOf(declaration))` for references, literal pushes
for literals, and operator calls after their arguments; the
multi-signature check brackets the signature and key `Get` lists with
their statically known count literals. -/
def genExpr : Expr → List Slot → Option (List Op)
  | .intE n, _ => some [Op.PushInt n]
  | .strE s, _ => some [Op.PushString s]
  | .varE v, stk => (depthOf v stk).map (fun d => [Op.Get d])
  | .bin f l r, stk => do
      let cl ← genExpr l stk
      let cr ← genExpr r (tmp :: stk)
      pure (cl ++ cr ++ [Op.Call f])
  | .hash f e, stk => do
      let c ← genExpr e stk
      pure (c ++ [Op.Call f])
  | .multiSig sigs keys, stk => do
      let (cs, stk1) ← genRefs sigs stk
      let (ck, _) ← genRefs keys (tmp :: stk1)
      pure (cs ++ [Op.PushInt sigs.length] ++ ck ++
        [Op.PushInt keys.length, Op.Call (Fn.CHECKMULTISIG sigs.length keys.length)])

/-- Modelled from the spec: statement-list generation of the IR
generator (§4.3): declarations leave their value in place and record a
new named slot; reassignment emits `Replace` at the depth captured
before the value's push; `require` and the locktime check consume their
condition; a branch snapshots the model, generates each arm from the
snapshot, drops each arm's surviving block-local declarations before
falling through, asserts depth parity at `EndIf`, and continues with
the then arm's slot identities. -/
def genStmts : Nat → List Stmt → List Slot → Option (List Op × List Slot)
  | _, [], stk => some ([], stk)
  | 0, _ :: _, _ => none
  | fuel + 1, .decl v nm e :: rest, stk => do
      let c ← genExpr e stk
      let (cr, stk') ← genStmts fuel rest (⟨some v, nm⟩ :: stk)
      pure (c ++ cr, stk')
  | fuel + 1, .assign v e :: rest, stk => do
      let d ← depthOf v stk
      let c ← genExpr e stk
      let (cr, stk') ← genStmts fuel rest stk
      pure (c ++ Op.Replace d :: cr, stk')
  | fuel + 1, .requireS e :: rest, stk => do
      let c ← genExpr e stk
      let (cr, stk') ← genStmts fuel rest stk
      pure (c ++ Op.Call Fn.REQUIRE :: cr, stk')
  | fuel + 1, .timeChk e :: rest, stk => do
      let c ← genExpr e stk
      let (cr, stk') ← genStmts fuel rest stk
      pure (c ++ Op.Call Fn.CHECK_LOCKTIME :: cr, stk')
  | fuel + 1, .branch cond thn els :: rest, stk => do
      let cc ← genExpr cond stk
      let (ct, stkT) ← genStmts fuel thn stk
      let nT := stkT.length - stk.length
      let contStk := stkT.drop nT
      match els with
      | none => do
          let (cr, stk') ← genStmts fuel rest contStk
          pure (cc ++ Op.If :: ct ++ List.replicate nT (Op.Drop 1) ++
            Op.EndIf :: cr, stk')
      | some el => do
          let (ce, stkE) ← genStmts fuel el stk
          let nE := stkE.length - stk.length
          if stkT.length - nT = stkE.length - nE then do
            let (cr, stk') ← genStmts fuel rest contStk
            pure (cc ++ Op.If :: ct ++ List.replicate nT (Op.Drop 1) ++
              Op.Else :: ce ++ List.replicate nE (Op.Drop 1) ++
              Op.EndIf :: cr, stk')
          else none

mutual

/-- Structural size of one statement, counting nested blocks. -/
def stmtSize : Stmt → Nat
  | .decl _ _ _ => 1
  | .assign _ _ => 1
  | .requireS _ => 1
  | .timeChk _ => 1
  | .branch _ thn els =>
      1 + stmtsSize thn + (match els with | none => 0 | some el => stmtsSize el)

/-- Structural size of a statement list. -/
def stmtsSize : List Stmt → Nat
  | [] => 0
  | s :: rest => 1 + stmtSize s + stmtsSize rest

end

/-- The fuel that always suffices for `genStmts`: one unit is consumed
per statement entered, and a statement's own size bounds the demand of
the sub-blocks it contains. -/
def genFuel (ss : List Stmt) : Nat :=
  stmtsSize ss

/-- Generates a whole function body from its seeded Stack Model. -/
def genBody (ss : List Stmt) (stk : List Slot) : Option (List Op × List Slot) :=
  genStmts (genFuel ss) ss stk

/-- One entry function of a contract: its parameter slots and body. -/
structure FnDef where
  params : List Slot
  body : List Stmt

/-- The compilation unit (§3): constructor parameters shared as a prefix
plus the entry functions. -/
structure Contract where
  ctor : List Slot
  fns : List FnDef

/-- Modelled from the spec: multi-function dispatch (§4.3): a cascading
equality-guarded if/else chain over the synthetic discriminant slot;
each function body is generated from its own seeded model
(constructor parameters, discriminant, then that function's
parameters), and the chain's `EndIf`s reconcile all arm depth deltas. -/
def genDispatch (ctor : List Slot) : Nat → List FnDef → Option (List Op × Int × List Slot)
  | _, [] => none
  | i, [f] => do
      let seed := ctor ++ dollarSlot :: f.params
      let (bc, stk') ← genBody f.body seed
      pure (Op.Get ctor.length :: Op.PushInt i :: Op.Call Fn.EQ :: Op.If ::
        bc ++ [Op.EndIf], ((stk'.length : Int) - (seed.length : Int), stk'))
  | i, f :: g :: rest => do
      let seed := ctor ++ dollarSlot :: f.params
      let (bc, stk') ← genBody f.body seed
      let (rc, dR, lastStk) ← genDispatch ctor (i + 1) (g :: rest)
      let dT : Int := (stk'.length : Int) - (seed.length : Int)
      if dT = dR then
        pure (Op.Get ctor.length :: Op.PushInt i :: Op.Call Fn.EQ :: Op.If ::
          bc ++ Op.Else :: rc ++ [Op.EndIf], dT, lastStk)
      else none

/-- Modelled from the spec: whole-contract compilation
(`GenerateIrTraversal` driven over the typed tree): a single function is
generated from the constructor-prefix-plus-parameters seed; several
functions go through the discriminant dispatch chain.  The result is
the emitted IR sequence and the ordered list of surviving slot display
names (the test suite's `traversal.stack`). -/
def compileContract (c : Contract) : Option (List Op × List String) :=
  match c.fns with
  | [] => none
  | [f] => do
      let (code, stk') ← genBody f.body (c.ctor ++ f.params)
      pure (code, stk'.map Slot.name)
  | fs => do
      let (code, _, lastStk) ← genDispatch c.ctor 0 fs
      pure (code, lastStk.map Slot.name)

/-! ### The six fixture contracts of `IR.test.ts`

The `.cash` fixture sources are reconstructed as resolved typed trees
(the front end is out of scope, §1); each is validated below by the
generator reproducing the test's expected IR and final stack exactly. -/

/-- The `p2pkh.cash` fixture: constructor parameter `pkh`, one function
with parameters `pk`, `s`, body `require(sha256(pk) == pkh);
require(checkSig(s, pk))`. -/
def p2pkhC : Contract :=
  ⟨[⟨some 1, "pkh"⟩],
   [⟨[⟨some 2, "pk"⟩, ⟨some 3, "s"⟩],
     [.requireS (.bin .EQ (.hash .SHA256 (.varE 2)) (.varE 1)),
      .requireS (.bin .CHECKSIG (.varE 3) (.varE 2))]⟩]⟩

/-- The expected IR of the `should compile P2PKH contract` test. -/
def p2pkhIr : List Op :=
  [.Get 1, .Call .SHA256,
   .Get 1, .Call .EQ,
   .Call .REQUIRE,
   .Get 2, .Get 2, .Call .CHECKSIG,
   .Call .REQUIRE]

/-- The `simple_variables.cash` fixture: constructor `(x, y)`, function
`(pk, s)` with locals `myVariable`, `myOtherVariable` and two `hw`
declarations, two hashes compared, then a signature check. -/
def simpleVariablesC : Contract :=
  ⟨[⟨some 1, "x"⟩, ⟨some 2, "y"⟩],
   [⟨[⟨some 3, "pk"⟩, ⟨some 4, "s"⟩],
     [.decl 5 "myVariable" (.bin .MINUS (.intE 10) (.intE 4)),
      .decl 6 "myOtherVariable" (.bin .PLUS (.intE 20) (.bin .MOD (.varE 5) (.intE 2))),
      .requireS (.bin .GT (.varE 6) (.varE 1)),
      .decl 7 "hw" (.strE "Hello World"),
      .decl 8 "hw" (.bin .PLUS (.varE 7) (.varE 2)),
      .requireS (.bin .EQ (.hash .RIPEMD160 (.varE 3)) (.hash .RIPEMD160 (.varE 8))),
      .requireS (.bin .CHECKSIG (.varE 4) (.varE 3))]⟩]⟩

/-- The expected IR of the `simple_variables` test. -/
def simpleVariablesIr : List Op :=
  [.PushInt 10, .PushInt 4, .Call .MINUS,
   .PushInt 20, .Get 1, .PushInt 2,
   .Call .MOD, .Call .PLUS,
   .Get 0, .Get 3, .Call .GT, .Call .REQUIRE,
   .PushString "Hello World",
   .Get 0, .Get 5, .Call .PLUS,
   .Get 6, .Call .RIPEMD160,
   .Get 1, .Call .RIPEMD160,
   .Call .EQ, .Call .REQUIRE,
   .Get 7, .Get 7, .Call .CHECKSIG,
   .Call .REQUIRE]

/-- The `if_statement.cash` fixture: constructor `(x, y)`, function
`(a, b)`, shadowing `d` declarations, a reassignment inside the then
arm, and a differing guard in the else arm. -/
def ifStatementC : Contract :=
  ⟨[⟨some 1, "x"⟩, ⟨some 2, "y"⟩],
   [⟨[⟨some 3, "a"⟩, ⟨some 4, "b"⟩],
     [.decl 5 "d" (.bin .PLUS (.varE 3) (.varE 4)),
      .decl 6 "d" (.bin .MINUS (.varE 5) (.varE 3)),
      .branch (.bin .EQ (.varE 6) (.bin .MINUS (.varE 1) (.intE 2)))
        [.decl 7 "d" (.bin .PLUS (.varE 6) (.varE 4)),
         .assign 5 (.bin .PLUS (.varE 3) (.varE 7)),
         .requireS (.bin .GT (.varE 7) (.varE 6))]
        (some [.requireS (.bin .EQ (.varE 6) (.varE 3))]),
      .decl 8 "d" (.bin .PLUS (.varE 6) (.varE 3)),
      .requireS (.bin .EQ (.varE 8) (.varE 2))]⟩]⟩

/-- The expected IR of the `if_statements` test. -/
def ifStatementIr : List Op :=
  [.Get 2, .Get 4, .Call .PLUS,
   .Get 0, .Get 4, .Call .MINUS,
   .Get 0, .Get 3, .PushInt 2, .Call .MINUS,
   .Call .EQ, .If,
   .Get 0, .Get 6, .Call .PLUS,
   .Get 5, .Get 1, .Call .PLUS, .Replace 2,
   .Get 0, .Get 2, .Call .GT, .Call .REQUIRE,
   .Drop 1, .Else,
   .Get 0, .Get 5, .Call .EQ, .Call .REQUIRE,
   .EndIf,
   .Get 0, .Get 5, .Call .PLUS,
   .Get 0, .Get 5, .Call .EQ, .Call .REQUIRE]

/-- The `transfer_with_timeout.cash` fixture: constructor
`(sender, recipient, timeout)` and two functions `transfer(recipientSig)`
and `timeout(senderSig)`, the latter with a locktime check. -/
def transferC : Contract :=
  ⟨[⟨some 1, "sender"⟩, ⟨some 2, "recipient"⟩, ⟨some 3, "timeout"⟩],
   [⟨[⟨some 4, "recipientSig"⟩],
     [.requireS (.bin .CHECKSIG (.varE 4) (.varE 2))]⟩,
    ⟨[⟨some 5, "senderSig"⟩],
     [.requireS (.bin .CHECKSIG (.varE 5) (.varE 1)),
      .timeChk (.varE 3)]⟩]⟩

/-- The expected IR of the `transfer_with_timeout` test. -/
def transferIr : List Op :=
  [.Get 3, .PushInt 0, .Call .EQ, .If,
   .Get 4, .Get 2, .Call .CHECKSIG, .Call .REQUIRE,
   .Else, .Get 3, .PushInt 1, .Call .EQ, .If,
   .Get 4, .Get 1, .Call .CHECKSIG, .Call .REQUIRE,
   .Get 2, .Call .CHECK_LOCKTIME,
   .EndIf, .EndIf]

/-- The `multifunction_if_statements.cash` fixture: constructor `(x, y)`
and two functions, the first like `if_statement`'s function with an
else-arm reassignment, the second with a single parameter and an
else-less branch. -/
def multifunctionC : Contract :=
  ⟨[⟨some 1, "x"⟩, ⟨some 2, "y"⟩],
   [⟨[⟨some 3, "a"⟩, ⟨some 4, "b"⟩],
     [.decl 5 "d" (.bin .PLUS (.varE 3) (.varE 4)),
      .decl 6 "d" (.bin .MINUS (.varE 5) (.varE 3)),
      .branch (.bin .EQ (.varE 6) (.varE 1))
        [.decl 7 "d" (.bin .PLUS (.varE 6) (.varE 4)),
         .assign 5 (.bin .PLUS (.varE 3) (.varE 7)),
         .requireS (.bin .GT (.varE 7) (.varE 6))]
        (some [.assign 5 (.varE 3)]),
      .decl 8 "d" (.bin .PLUS (.varE 6) (.varE 3)),
      .requireS (.bin .EQ (.varE 8) (.varE 2))]⟩,
    ⟨[⟨some 9, "b"⟩],
     [.decl 10 "d" (.varE 9),
      .decl 11 "d" (.bin .PLUS (.varE 10) (.intE 2)),
      .branch (.bin .EQ (.varE 11) (.varE 1))
        [.decl 12 "d" (.bin .PLUS (.varE 11) (.varE 9)),
         .assign 10 (.bin .PLUS (.varE 12) (.varE 11)),
         .requireS (.bin .GT (.varE 12) (.varE 11))]
        none,
      .decl 13 "d" (.varE 9),
      .requireS (.bin .EQ (.varE 13) (.varE 2))]⟩]⟩

/-- The expected IR of the `multifunction_if_statements` test. -/
def multifunctionIr : List Op :=
  [.Get 2, .PushInt 0, .Call .EQ, .If,
   .Get 3, .Get 5, .Call .PLUS,
   .Get 0, .Get 5, .Call .MINUS,
   .Get 0, .Get 3, .Call .EQ, .If,
   .Get 0, .Get 7, .Call .PLUS,
   .Get 6, .Get 1, .Call .PLUS, .Replace 2,
   .Get 0, .Get 2, .Call .GT, .Call .REQUIRE,
   .Drop 1, .Else,
   .Get 5, .Replace 1,
   .EndIf,
   .Get 0, .Get 6, .Call .PLUS,
   .Get 0, .Get 5, .Call .EQ, .Call .REQUIRE,
   .Else, .Get 2, .PushInt 1, .Call .EQ, .If,
   .Get 3,
   .Get 0, .PushInt 2, .Call .PLUS,
   .Get 0, .Get 3, .Call .EQ, .If,
   .Get 0, .Get 6, .Call .PLUS,
   .Get 0, .Get 2, .Call .PLUS, .Replace 2,
   .Get 0, .Get 2, .Call .GT, .Call .REQUIRE,
   .Drop 1, .EndIf,
   .Get 5,
   .Get 0, .Get 5, .Call .EQ, .Call .REQUIRE,
   .EndIf, .EndIf]

/-- The `2_of_3_multisig.cash` fixture: constructor `(pk1, pk2, pk3)`,
function `(s1, s2)`, body `require(checkMultiSig([s1, s2],
[pk1, pk2, pk3]))`. -/
def multisigC : Contract :=
  ⟨[⟨some 1, "pk1"⟩, ⟨some 2, "pk2"⟩, ⟨some 3, "pk3"⟩],
   [⟨[⟨some 4, "s1"⟩, ⟨some 5, "s2"⟩],
     [.requireS (.multiSig [4, 5] [1, 2, 3])]⟩]⟩

/-- The expected IR of the `should compile multisig` test. -/
def multisigIr : List Op :=
  [.Get 3, .Get 5, .PushInt 2,
   .Get 3, .Get 5, .Get 7, .PushInt 3,
   .Call (.CHECKMULTISIG 2 3), .Call .REQUIRE]

/-- All six fixture contracts, in the test file's order. -/
def allFixtures : List Contract :=
  [p2pkhC, simpleVariablesC, ifStatementC, transferC, multifunctionC, multisigC]

/-! ### Arity-table replay checkers over emitted IR sequences -/

/-- The signed net stack effect of one non-branch instruction, from the
arity table: pushes count `+1` each, `Replace` nets `-1`, `Drop(n)` nets
`-n`, and a call nets its push-count minus its pop-count.  (`If` pops
its condition; the branch markers are handled by the checkers.) -/
def opDelta : Op → Int
  | .PushInt _ => 1
  | .PushString _ => 1
  | .Get _ => 1
  | .Replace _ => -1
  | .Drop n => -(n : Int)
  | .Call f => ((arity f).2 : Int) - ((arity f).1 : Int)
  | .If => -1
  | .Else => 0
  | .EndIf => 0

/-- Walks an IR sequence maintaining the net stack-depth change and a
frame per open branch (the depth at branch entry, after the condition
is consumed, and — once `Else` is seen — the depth the then arm ended
at).  At each `EndIf` that closes an `If`/`Else` pair it checks that the
else arm ended at the very depth the then arm ended at, i.e. that both
arms' net depth changes from the shared entry snapshot agree. -/
def parityGo : Int → List (Int × Option Int) → List Op → Bool
  | _, frames, [] => frames.isEmpty
  | h, frames, .If :: rest => parityGo (h - 1) ((h - 1, none) :: frames) rest
  | h, (s, none) :: fs, .Else :: rest => parityGo s ((s, some h) :: fs) rest
  | _, _, .Else :: _ => false
  | h, (_, none) :: fs, .EndIf :: rest => parityGo h fs rest
  | h, (_, some t) :: fs, .EndIf :: rest => (h == t) && parityGo t fs rest
  | _, [], .EndIf :: _ => false
  | h, frames, op :: rest => parityGo (h + opDelta op) frames rest

/-- Depth parity of every `If`/`Else`/`EndIf` branch of a sequence,
replayed from the arity table. -/
def branchParityOk (ir : List Op) : Bool :=
  parityGo 0 [] ir

/-- Replays an IR sequence from a seeded stack height, checking that
every depth access stays in bounds: `Get(d)` and `Replace(d)` address
existing slots, `Drop` and calls have their pop-counts available, `If`
has a condition to consume, and every branch marker closes properly.
At `Else` the height is restored to the branch-entry snapshot; after a
closed `If`/`Else` pair the then arm's exit height is kept. -/
def replayGo : Nat → List (Nat × Option Nat) → List Op → Bool
  | _, frames, [] => frames.isEmpty
  | h, frames, .If :: rest => decide (1 ≤ h) && replayGo (h - 1) ((h - 1, none) :: frames) rest
  | h, (s, none) :: fs, .Else :: rest => replayGo s ((s, some h) :: fs) rest
  | _, _, .Else :: _ => false
  | h, (_, none) :: fs, .EndIf :: rest => replayGo h fs rest
  | _, (_, some t) :: fs, .EndIf :: rest => replayGo t fs rest
  | _, [], .EndIf :: _ => false
  | h, frames, .Get d :: rest => decide (d < h) && replayGo (h + 1) frames rest
  | h, frames, .Replace d :: rest => decide (d + 2 ≤ h) && replayGo (h - 1) frames rest
  | h, frames, .Drop n :: rest => decide (n ≤ h) && replayGo (h - n) frames rest
  | h, frames, .Call f :: rest =>
      decide ((arity f).1 ≤ h) && replayGo (h - (arity f).1 + (arity f).2) frames rest
  | h, frames, .PushInt _ :: rest => replayGo (h + 1) frames rest
  | h, frames, .PushString _ :: rest => replayGo (h + 1) frames rest

/-- All depth accesses of a sequence are in bounds when replayed from
stack height `h`. -/
def replayBoundedOk (h : Nat) (ir : List Op) : Bool :=
  replayGo h [] ir

/-- The seeded Stack Model of one function (§4.3 function entry):
constructor parameters, then — for multi-function contracts — the
synthetic discriminant, then the function's own parameters. -/
def fnSeed (c : Contract) (f : FnDef) : List Slot :=
  if c.fns.length ≤ 1 then c.ctor ++ f.params
  else c.ctor ++ dollarSlot :: f.params

/-- The IR sequence the generator emits for one function's body, from
that function's seeded Stack Model. -/
def fnIr (c : Contract) (f : FnDef) : Option (List Op) :=
  (genBody f.body (fnSeed c f)).map Prod.fst

/-- Checks branch-marker well-nesting: every `Else` and `EndIf` has an
open `If`, at most one `Else` occurs per open branch, and every `If` is
closed by the end of the sequence.  The frame records whether the open
branch has already seen its `Else`. -/
def nestGo : List Bool → List Op → Bool
  | frames, [] => frames.isEmpty
  | frames, .If :: rest => nestGo (false :: frames) rest
  | false :: fs, .Else :: rest => nestGo (true :: fs) rest
  | _, .Else :: _ => false
  | _ :: fs, .EndIf :: rest => nestGo fs rest
  | [], .EndIf :: _ => false
  | frames, _ :: rest => nestGo frames rest

/-- Branch markers of a sequence are well nested. -/
def wellNestedOk (ir : List Op) : Bool :=
  nestGo [] ir

/-- Whether `code` occurs as a contiguous run inside `ir`. -/
def occursIn (code : List Op) : List Op → Bool
  | [] => code.isEmpty
  | op :: rest => code.isPrefixOf (op :: rest) || occursIn code rest

/-! ### The peephole optimizer -/

/-- Modelled from the spec: one scan of the Optimizer (§4.4), applying
the catalogue of local, stack-effect-preserving window substitutions
once across the sequence: a push or `Get` immediately followed by a
`Drop()` of that very value cancels to nothing, and a pair of integer
pushes immediately consumed by a foldable operator is constant-folded.
Every rule strictly shortens the window it fires on. -/
def scanIR : List Op → List Op
  | .Get _ :: .Drop 1 :: rest => scanIR rest
  | .PushInt _ :: .Drop 1 :: rest => scanIR rest
  | .PushString _ :: .Drop 1 :: rest => scanIR rest
  | .PushInt a :: .PushInt b :: .Call .PLUS :: rest => .PushInt (a + b) :: scanIR rest
  | .PushInt a :: .PushInt b :: .Call .MINUS :: rest => .PushInt (a - b) :: scanIR rest
  | op :: rest => op :: scanIR rest
  | [] => []

/-- Modelled from the spec: the fixpoint loop of the Optimizer (§4.4):
apply all rules once per scan and repeat until no rule fires, with the
iteration count bounded by the sequence length to guarantee
termination. -/
def optimizeFuel : Nat → List Op → List Op
  | 0, l => l
  | n + 1, l =>
      let l' := scanIR l
      if l' = l then l else optimizeFuel n l'

/-- The Optimizer pass: iterate `scanIR` to fixpoint, bounded by the
sequence length. -/
def optimize (l : List Op) : List Op :=
  optimizeFuel l.length l

/-- Every scan either fires no rule (returning its input) or strictly
shortens the sequence — the fact that bounds the fixpoint iteration. -/
theorem scanIR_shorten : ∀ l : List Op, scanIR l = l ∨ (scanIR l).length < l.length := by
  intro l
  induction l using scanIR.induct with
  | case1 d rest ih =>
      right; rcases ih with h | h <;> simp [scanIR, h] <;> omega
  | case2 a rest ih =>
      right; rcases ih with h | h <;> simp [scanIR, h] <;> omega
  | case3 s rest ih =>
      right; rcases ih with h | h <;> simp [scanIR, h] <;> omega
  | case4 a b rest ih =>
      right
      rcases ih with h | h
      · simp [scanIR, h]
      · simp only [scanIR, List.length_cons]
        omega
  | case5 a b rest ih =>
      right
      rcases ih with h | h
      · simp [scanIR, h]
      · simp only [scanIR, List.length_cons]
        omega
  | case6 op rest h1 h2 h3 h4 h5 ih =>
      rw [scanIR.eq_6 op rest h1 h2 h3 h4 h5]
      rcases ih with h | h
      · left; rw [h]
      · right; simpa using h
  | case7 => left; rfl

/-- With fuel at least the sequence length, the bounded iteration lands
on a genuine fixpoint of the scan. -/
theorem optimizeFuel_fix : ∀ fuel (l : List Op), l.length ≤ fuel →
    scanIR (optimizeFuel fuel l) = optimizeFuel fuel l := by
  intro fuel
  induction fuel with
  | zero =>
      intro l h
      have : l = [] := List.eq_nil_of_length_eq_zero (Nat.le_zero.mp h)
      subst this
      rfl
  | succ n ih =>
      intro l h
      by_cases hc : scanIR l = l
      · simp [optimizeFuel, hc]
      · have hlen : (scanIR l).length < l.length := (scanIR_shorten l).resolve_left hc
        simp only [optimizeFuel, if_neg hc]
        exact ih (scanIR l) (by omega)

/-- Iterating from a fixpoint of the scan changes nothing. -/
theorem optimizeFuel_stable : ∀ fuel (l : List Op), scanIR l = l →
    optimizeFuel fuel l = l := by
  intro fuel
  induction fuel with
  | zero => intro l _; rfl
  | succ n _ => intro l h; simp [optimizeFuel, h]

/-! ### The assembler's literal-push encoding

Modelled from the spec (§4.5): a literal becomes the shortest push
encoding that round-trips to the same value, including the VM's small
integer direct opcodes.  Bytes are `Nat`s below 256; integers use the
VM's little-endian sign-and-magnitude number format with a minimal-width
most significant byte. -/

/-- Modelled from the spec: the minimal little-endian
sign-and-magnitude byte encoding of a nonzero magnitude: emit low-order
bytes until the remaining magnitude fits below `0x80`, which becomes the
final byte carrying the sign bit; a magnitude whose top byte would
collide with the sign bit gets one extra sign-only byte. -/
def scriptNumBytes (neg : Bool) (m : Nat) : List Nat :=
  if m < 128 then [if neg then m + 128 else m]
  else m % 256 :: scriptNumBytes neg (m / 256)
  decreasing_by exact Nat.div_lt_self (by omega) (by omega)

/-- Reads a little-endian sign-and-magnitude byte list back into its
sign flag and magnitude: the final byte holds the sign bit and the top
magnitude bits. -/
def decodeGo : List Nat → Bool × Nat
  | [] => (false, 0)
  | [b] => (decide (128 ≤ b), b % 128)
  | b :: c :: rest =>
      let (s, m) := decodeGo (c :: rest)
      (s, b + 256 * m)

/-- The VM number encoding of an integer: zero is the empty byte
string. -/
def scriptNumEncode (n : Int) : List Nat :=
  if n = 0 then [] else scriptNumBytes (decide (n < 0)) n.natAbs

/-- The VM number interpretation of a byte string. -/
def scriptNumDecode (l : List Nat) : Int :=
  match decodeGo l with
  | (true, m) => -(m : Int)
  | (false, m) => (m : Int)

/-- Modelled from the spec: the minimal-length push encoding of a data
payload (§4.5): the empty push and the VM's small-integer payloads get
their direct opcodes (`OP_0` = 0, `OP_1NEGATE` = 79, `OP_1`..`OP_16` =
81..96); short payloads get a one-byte length prefix; longer ones the
`PUSHDATA1`/`PUSHDATA2`/`PUSHDATA4` (76/77/78) length-prefixed forms. -/
def assemblePush : List Nat → List Nat
  | [] => [0]
  | [k] =>
      if k = 129 then [79]
      else if 1 ≤ k ∧ k ≤ 16 then [80 + k]
      else [1, k]
  | b =>
      if b.length ≤ 75 then b.length :: b
      else if b.length ≤ 255 then 76 :: b.length :: b
      else if b.length ≤ 65535 then 77 :: b.length % 256 :: b.length / 256 :: b
      else 78 :: b.length % 256 :: b.length / 256 % 256 ::
        b.length / 65536 % 256 :: b.length / 16777216 % 256 :: b

/-- Decodes a push encoding back to its data payload: direct opcodes
become their payloads, and each length-prefixed form checks its length
against the remaining data. -/
def disassemblePush : List Nat → Option (List Nat)
  | [] => none
  | op :: rest =>
      if op = 0 then if rest = [] then some [] else none
      else if op = 79 then if rest = [] then some [129] else none
      else if 81 ≤ op ∧ op ≤ 96 then if rest = [] then some [op - 80] else none
      else if op ≤ 75 then if rest.length = op then some rest else none
      else if op = 76 then
        match rest with
        | len :: d => if d.length = len then some d else none
        | [] => none
      else if op = 77 then
        match rest with
        | l1 :: l2 :: d => if d.length = l1 + 256 * l2 then some d else none
        | _ => none
      else if op = 78 then
        match rest with
        | l1 :: l2 :: l3 :: l4 :: d =>
            if d.length = l1 + 256 * l2 + 65536 * l3 + 16777216 * l4 then some d else none
        | _ => none
      else none

/-- Assembling an integer literal: minimal number bytes, then the
minimal push. -/
def assembleIntLit (n : Int) : List Nat :=
  assemblePush (scriptNumEncode n)

/-- Disassembling an integer literal. -/
def disassembleIntLit (l : List Nat) : Option Int :=
  (disassemblePush l).map scriptNumDecode

/-- Assembling a byte-string literal. -/
def assembleBytesLit (b : List Nat) : List Nat :=
  assemblePush b

/-- Disassembling a byte-string literal. -/
def disassembleBytesLit (l : List Nat) : Option (List Nat) :=
  disassemblePush l

/-- Assembling a boolean literal: the VM truth values 1 and 0. -/
def assembleBoolLit (t : Bool) : List Nat :=
  assemblePush (scriptNumEncode (if t then 1 else 0))

/-- Disassembling a boolean literal: nonzero means true. -/
def disassembleBoolLit (l : List Nat) : Option Bool :=
  (disassemblePush l).map (fun b => decide (scriptNumDecode b ≠ 0))

/-- The number encoding never produces an empty byte list. -/
theorem scriptNumBytes_ne_nil (neg : Bool) (m : Nat) : scriptNumBytes neg m ≠ [] := by
  rw [scriptNumBytes]
  split <;> simp

/-- Decoding inverts the sign-and-magnitude byte encoding. -/
theorem decodeGo_scriptNumBytes (neg : Bool) :
    ∀ m, decodeGo (scriptNumBytes neg m) = (neg, m) := by
  intro m
  induction m using Nat.strong_induction_on with
  | _ m ih =>
    rw [scriptNumBytes]
    by_cases h : m < 128
    · rw [if_pos h]
      cases neg with
      | false =>
          simp only [decodeGo, if_false, Bool.false_eq_true, Nat.mod_eq_of_lt h, Prod.mk.injEq]
          simp only [decide_eq_false_iff_not, not_le, and_true]
          omega
      | true =>
          have h1 : 128 ≤ m + 128 := by omega
          have h2 : (m + 128) % 128 = m := by omega
          simp only [decodeGo, if_true, h2, Prod.mk.injEq, and_true]
          simp only [decide_eq_true_eq]
          omega
    · rw [if_neg h]
      have hdiv : m / 256 < m := Nat.div_lt_self (by omega) (by omega)
      have ihd := ih (m / 256) hdiv
      obtain ⟨c, rest, heq⟩ : ∃ c rest, scriptNumBytes neg (m / 256) = c :: rest := by
        cases hb : scriptNumBytes neg (m / 256) with
        | nil => exact absurd hb (scriptNumBytes_ne_nil neg (m / 256))
        | cons c rest => exact ⟨c, rest, rfl⟩
      rw [heq]
      rw [heq] at ihd
      simp only [decodeGo, ihd]
      exact Prod.ext rfl (by omega)

/-- The VM number encoding round-trips through its decoder for every
integer. -/
theorem scriptNum_roundtrip (n : Int) : scriptNumDecode (scriptNumEncode n) = n := by
  unfold scriptNumEncode
  by_cases h : n = 0
  · simp [h, scriptNumDecode, decodeGo]
  · rw [if_neg h]
    unfold scriptNumDecode
    rw [decodeGo_scriptNumBytes]
    by_cases hn : n < 0
    · have hd : decide (n < 0) = true := by simpa using hn
      rw [hd]
      show -(n.natAbs : Int) = n
      omega
    · have hd : decide (n < 0) = false := by simpa using hn
      rw [hd]
      show (n.natAbs : Int) = n
      omega

/-- Decoding a one-byte length-prefixed push recovers its payload. -/
theorem disassemble_len (len : Nat) (d : List Nat) (h1 : 1 ≤ len) (h75 : len ≤ 75)
    (hd : d.length = len) : disassemblePush (len :: d) = some d := by
  simp only [disassemblePush]
  rw [if_neg (by omega), if_neg (by omega), if_neg (by omega), if_pos h75, if_pos hd]

/-- Decoding a `PUSHDATA1` push recovers its payload. -/
theorem disassemble_pd1 (len : Nat) (d : List Nat) (hd : d.length = len) :
    disassemblePush (76 :: len :: d) = some d := by
  simp only [disassemblePush]
  rw [if_neg (by omega), if_neg (by omega), if_neg (by omega), if_neg (by omega)]
  simp [hd]

/-- Decoding a `PUSHDATA2` push recovers its payload. -/
theorem disassemble_pd2 (l1 l2 : Nat) (d : List Nat) (hd : d.length = l1 + 256 * l2) :
    disassemblePush (77 :: l1 :: l2 :: d) = some d := by
  simp only [disassemblePush]
  rw [if_neg (by omega), if_neg (by omega), if_neg (by omega), if_neg (by omega),
    if_neg (by omega)]
  simp [hd]

/-- Decoding a `PUSHDATA4` push recovers its payload. -/
theorem disassemble_pd4 (l1 l2 l3 l4 : Nat) (d : List Nat)
    (hd : d.length = l1 + 256 * l2 + 65536 * l3 + 16777216 * l4) :
    disassemblePush (78 :: l1 :: l2 :: l3 :: l4 :: d) = some d := by
  simp only [disassemblePush]
  rw [if_neg (by omega), if_neg (by omega), if_neg (by omega), if_neg (by omega),
    if_neg (by omega), if_neg (by omega)]
  simp [hd]

/-- The minimal push encoding round-trips through its decoder for every
payload below the `PUSHDATA4` length bound. -/
theorem push_roundtrip : ∀ p : List Nat, p.length < 4294967296 →
    disassemblePush (assemblePush p) = some p := by
  intro p hlen
  match p with
  | [] => rfl
  | [k] =>
      by_cases h129 : k = 129
      · subst h129; rfl
      · by_cases hsmall : 1 ≤ k ∧ k ≤ 16
        · have h0 : ¬(80 + k = 0) := by omega
          have h79 : ¬(80 + k = 79) := by omega
          have h81 : 81 ≤ 80 + k ∧ 80 + k ≤ 96 := by omega
          simp only [assemblePush, if_neg h129, if_pos hsmall]
          simp only [disassemblePush]
          rw [if_neg h0, if_neg h79, if_pos h81]
          simp
        · simp only [assemblePush, if_neg h129, if_neg hsmall]
          exact disassemble_len 1 [k] (by omega) (by omega) rfl
  | a :: b :: t =>
      simp only [assemblePush]
      by_cases h75 : (a :: b :: t).length ≤ 75
      · rw [if_pos h75]
        exact disassemble_len _ _ (by simp) h75 rfl
      · rw [if_neg h75]
        by_cases h255 : (a :: b :: t).length ≤ 255
        · rw [if_pos h255]
          exact disassemble_pd1 _ _ rfl
        · rw [if_neg h255]
          by_cases h65535 : (a :: b :: t).length ≤ 65535
          · rw [if_pos h65535]
            exact disassemble_pd2 _ _ _ (Nat.mod_add_div _ 256).symm
          · rw [if_neg h65535]
            exact disassemble_pd4 _ _ _ _ _ (by omega)

/-- Every successful statement-list generation only ever extends the
Stack Model it was given: the resulting model is some list of new local
slots on top of the original slots, which are left untouched
(reassignment renames a slot to the declaration it already carries, and
branch arms drop their own block-locals before falling through). -/
theorem genStmts_suffix : ∀ (fuel : Nat) (ss : List Stmt) (stk : List Slot) code stk',
    genStmts fuel ss stk = some (code, stk') → ∃ pre, stk' = pre ++ stk := by
  intro fuel
  induction fuel with
  | zero =>
      intro ss stk code stk' h
      cases ss with
      | nil =>
          simp only [genStmts, Option.some.injEq, Prod.mk.injEq] at h
          exact ⟨[], by simp [h.2.symm]⟩
      | cons s rest => exact absurd h (by simp [genStmts])
  | succ fuel ih =>
      intro ss stk code stk' h
      cases ss with
      | nil =>
          simp only [genStmts, Option.some.injEq, Prod.mk.injEq] at h
          exact ⟨[], by simp [h.2.symm]⟩
      | cons s rest =>
        cases s with
        | decl v nm e =>
            simp only [genStmts, bind, pure, Option.bind_eq_some] at h
            obtain ⟨c, _, ⟨cr, stk2⟩, hr, heq⟩ := h
            obtain ⟨pre, hpre⟩ := ih rest _ cr stk2 hr
            simp only [Option.some.injEq, Prod.mk.injEq] at heq
            exact ⟨pre ++ [⟨some v, nm⟩], by simp [heq.2.symm, hpre]⟩
        | assign v e =>
            simp only [genStmts, bind, pure, Option.bind_eq_some] at h
            obtain ⟨d, _, c, _, ⟨cr, stk2⟩, hr, heq⟩ := h
            obtain ⟨pre, hpre⟩ := ih rest _ cr stk2 hr
            simp only [Option.some.injEq, Prod.mk.injEq] at heq
            exact ⟨pre, by simp [heq.2.symm, hpre]⟩
        | requireS e =>
            simp only [genStmts, bind, pure, Option.bind_eq_some] at h
            obtain ⟨c, _, ⟨cr, stk2⟩, hr, heq⟩ := h
            obtain ⟨pre, hpre⟩ := ih rest _ cr stk2 hr
            simp only [Option.some.injEq, Prod.mk.injEq] at heq
            exact ⟨pre, by simp [heq.2.symm, hpre]⟩
        | timeChk e =>
            simp only [genStmts, bind, pure, Option.bind_eq_some] at h
            obtain ⟨c, _, ⟨cr, stk2⟩, hr, heq⟩ := h
            obtain ⟨pre, hpre⟩ := ih rest _ cr stk2 hr
            simp only [Option.some.injEq, Prod.mk.injEq] at heq
            exact ⟨pre, by simp [heq.2.symm, hpre]⟩
        | branch cond thn els =>
            simp only [genStmts, bind, pure, Option.bind_eq_some] at h
            obtain ⟨cc, _, ⟨ct, stkT⟩, hT, h⟩ := h
            obtain ⟨preT, hpreT⟩ := ih thn _ ct stkT hT
            have hcont : stkT.drop (stkT.length - stk.length) = stk := by
              subst hpreT
              simp [List.drop_left]
            cases els with
            | none =>
                simp only [Option.bind_eq_some] at h
                obtain ⟨⟨cr, stk2⟩, hr, heq⟩ := h
                obtain ⟨pre, hpre⟩ := ih rest _ cr stk2 hr
                simp only [Option.some.injEq, Prod.mk.injEq] at heq
                rw [hcont] at hpre
                exact ⟨pre, by simp [heq.2.symm, hpre]⟩
            | some el =>
                simp only [Option.bind_eq_some] at h
                obtain ⟨⟨ce, stkE⟩, hE, h⟩ := h
                split at h
                · simp only [Option.bind_eq_some] at h
                  obtain ⟨⟨cr, stk2⟩, hr, heq⟩ := h
                  obtain ⟨pre, hpre⟩ := ih rest _ cr stk2 hr
                  simp only [Option.some.injEq, Prod.mk.injEq] at heq
                  rw [hcont] at hpre
                  exact ⟨pre, by simp [heq.2.symm, hpre]⟩
                · exact absurd h (by simp)

/-- Claim C6: for every `Replace(d)` instruction emitted for a variable
reassignment, the depth `d` is the reassigned declaration's depth in the
Stack Model captured before the replacement value's push, and after
executing the `Replace` the Stack Model is exactly the model from
before that push: same length, every slot unchanged. -/
theorem claim_c6_replace_depth (fuel : Nat) (v : Nat) (e : Expr) (stk : List Slot)
    (code : List Op) (stk' : List Slot)
    (h : genStmts fuel [Stmt.assign v e] stk = some (code, stk')) :
    stk' = stk ∧ ∃ d c, depthOf v stk = some d ∧ code = c ++ [Op.Replace d] := by
  cases fuel with
  | zero => exact absurd h (by simp [genStmts])
  | succ fuel =>
    simp only [genStmts, bind, pure, Option.bind_eq_some] at h
    obtain ⟨d, hd, c, hc, ⟨cr, stk2⟩, hr, heq⟩ := h
    simp only [genStmts, Option.some.injEq, Prod.mk.injEq] at hr
    simp only [Option.some.injEq, Prod.mk.injEq] at heq
    obtain ⟨hcode, hstk⟩ := heq
    refine ⟨by rw [← hstk, ← hr.2], d, c, hd, ?_⟩
    rw [← hcode, ← hr.1]

/-- The last-function seed of a contract: the Stack Model the generator
starts the final dispatched function from. -/
def lastSeed (c : Contract) : Option (List Slot) :=
  c.fns.getLast?.map (fnSeed c)

/-- The surviving Stack Model reported by the dispatch chain is the last
function's, and extends that function's seed. -/
theorem genDispatch_suffix (ctor : List Slot) : ∀ (fs : List FnDef) i code d lastStk,
    genDispatch ctor i fs = some (code, d, lastStk) →
    ∃ f pre, fs.getLast? = some f ∧ lastStk = pre ++ (ctor ++ dollarSlot :: f.params) := by
  intro fs
  induction fs with
  | nil => intro i code d lastStk h; exact absurd h (by simp [genDispatch])
  | cons f fs ih =>
      intro i code d lastStk h
      cases fs with
      | nil =>
          simp only [genDispatch, genBody, bind, pure, Option.bind_eq_some] at h
          obtain ⟨⟨bc, stk'⟩, hb, heq⟩ := h
          obtain ⟨pre, hpre⟩ := genStmts_suffix _ _ _ _ _ hb
          simp only [Option.some.injEq, Prod.mk.injEq] at heq
          exact ⟨f, pre, rfl, by rw [← heq.2.2, hpre]⟩
      | cons g rest =>
          simp only [genDispatch, genBody, bind, pure, Option.bind_eq_some] at h
          obtain ⟨⟨bc, stk'⟩, hb, ⟨rc, dR, lastStk2⟩, hrec, heq⟩ := h
          split at heq
          · simp only [Option.some.injEq, Prod.mk.injEq] at heq
            obtain ⟨f', pre, hlast, hpre⟩ := ih (i + 1) rc dR lastStk2 hrec
            refine ⟨f', pre, ?_, by rw [← heq.2.2, hpre]⟩
            rw [List.getLast?_cons_cons]
            exact hlast
          · exact absurd heq (by simp)

/-- The number encoding of a magnitude below `128 · 256 ^ k` takes at
most `k + 1` bytes. -/
theorem scriptNumBytes_len : ∀ k m (neg : Bool), m < 128 * 256 ^ k →
    (scriptNumBytes neg m).length ≤ k + 1 := by
  intro k
  induction k with
  | zero =>
      intro m neg h
      rw [scriptNumBytes, if_pos (by simpa using h)]
      simp
  | succ k ih =>
      intro m neg h
      rw [scriptNumBytes]
      by_cases hm : m < 128
      · rw [if_pos hm]; simp
      · rw [if_neg hm]
        have : m / 256 < 128 * 256 ^ k := by
          rw [Nat.div_lt_iff_lt_mul (by omega)]
          calc m < 128 * 256 ^ (k + 1) := h
          _ = 128 * 256 ^ k * 256 := by ring
        have := ih (m / 256) neg this
        simp only [List.length_cons]
        omega

/-! ### The claims -/

/-- Claim C1: for every compiled fixture function and every
`If`/`Else`/`EndIf` branch pair closed in its emitted IR sequence, the
net stack-depth change of the then arm (computed from the arity-table
stack effects of its instructions) equals the net stack-depth change of
the else arm, as the generator asserts at `EndIf`. -/
theorem claim_c1_branch_depth_parity :
    (allFixtures.all fun c =>
      match compileContract c with
      | some (ir, _) => branchParityOk ir
      | none => false) = true := by decide

/-- Claim C2: compiling the single-function pay-to-public-key-hash
contract with constructor parameter `pkh` and function parameters `pk`,
`s` produces exactly the IR sequence `Get(1)`, `Call(SHA256)`, `Get(1)`,
`Call(EQ)`, `Call(REQUIRE)`, `Get(2)`, `Get(2)`, `Call(CHECKSIG)`,
`Call(REQUIRE)`, and the final surviving slot-name list is exactly
`[pkh, pk, s]`. -/
theorem claim_c2_p2pkh_ir :
    compileContract p2pkhC = some (p2pkhIr, ["pkh", "pk", "s"]) := by decide

/-- Claim C3, counterexample: for the `simple_variables` fixture the
final surviving slot-name list is
`[hw, hw, myOtherVariable, myVariable, x, y, pk, s]`, which is not the
constructor parameters followed by the function parameters
`[x, y, pk, s]` — surviving top-level locals remain on the stack, so
the final list does contain entries other than parameters. -/
theorem claim_c3_counterexample :
    compileContract simpleVariablesC =
      some (simpleVariablesIr,
        ["hw", "hw", "myOtherVariable", "myVariable", "x", "y", "pk", "s"]) ∧
    (simpleVariablesC.ctor ++ (simpleVariablesC.fns.headD ⟨[], []⟩).params).map Slot.name =
      ["x", "y", "pk", "s"] ∧
    (["hw", "hw", "myOtherVariable", "myVariable", "x", "y", "pk", "s"] : List String) ≠
      ["x", "y", "pk", "s"] := by
  exact ⟨by decide, by decide, by decide⟩

/-- Claim C3, amended: for every successfully compiled contract the
final surviving slot-name list equals the surviving local declarations
(most recently declared first) followed by the seed names — the
constructor parameters, then for multi-function contracts the
discriminant slot, then the (last-compiled) function's own parameters,
in declaration order.  The parameter seed is always a suffix; it is the
whole list only when no top-level locals survive. -/
theorem claim_c3_amended_final_stack : ∀ (c : Contract) ir names,
    compileContract c = some (ir, names) →
    ∃ locals seed, lastSeed c = some seed ∧ names = locals ++ seed.map Slot.name := by
  intro c ir names h
  rcases hfs : c.fns with _ | ⟨f, _ | ⟨g, rest⟩⟩
  · unfold compileContract at h
    rw [hfs] at h
    exact absurd h (by simp)
  · unfold compileContract at h
    rw [hfs] at h
    simp only [bind, pure, Option.bind_eq_some] at h
    obtain ⟨⟨code, stk'⟩, hg, heq⟩ := h
    simp only [Option.some.injEq, Prod.mk.injEq] at heq
    simp only [genBody] at hg
    obtain ⟨pre, hpre⟩ := genStmts_suffix _ _ _ _ _ hg
    refine ⟨pre.map Slot.name, c.ctor ++ f.params, ?_, ?_⟩
    · simp [lastSeed, hfs, fnSeed]
    · rw [← heq.2, hpre]
      simp
  · unfold compileContract at h
    rw [hfs] at h
    simp only [bind, pure, Option.bind_eq_some] at h
    obtain ⟨⟨code, d, lastStk⟩, hg, heq⟩ := h
    simp only [Option.some.injEq, Prod.mk.injEq] at heq
    obtain ⟨f', pre, hlast, hpre⟩ := genDispatch_suffix c.ctor (f :: g :: rest) 0 code d lastStk hg
    refine ⟨pre.map Slot.name, c.ctor ++ dollarSlot :: f'.params, ?_, ?_⟩
    · unfold lastSeed
      rw [hfs, hlast]
      have hseed : fnSeed c f' = c.ctor ++ dollarSlot :: f'.params := by
        rw [fnSeed, if_neg (by rw [hfs]; simp only [List.length_cons]; omega)]
      simp [hseed]
    · rw [← heq.2, hpre]
      simp

/-- Claim C3, amended, witness at the p2pkh fixture: its final stack has
no surviving locals, so it is exactly the seed names. -/
theorem claim_c3_amended_witness :
    ∃ locals seed, lastSeed p2pkhC = some seed ∧
      (["pkh", "pk", "s"] : List String) = locals ++ seed.map Slot.name :=
  claim_c3_amended_final_stack p2pkhC p2pkhIr ["pkh", "pk", "s"] (by decide)

/-- Claim C4: the two-function `transfer_with_timeout` contract compiles
each function body under its own nested `If`/`Else`/`EndIf` over the
synthetic discriminant slot named `$$`, the timeout arm additionally
emits `Get` followed by `Call(CHECK_LOCKTIME)` (which pushes no result
per the arity table), and the final surviving slot-name list is exactly
`[sender, recipient, timeout, $$, senderSig]`. -/
theorem claim_c4_transfer_with_timeout_ir :
    compileContract transferC =
      some (transferIr, ["sender", "recipient", "timeout", "$$", "senderSig"]) ∧
    dollarSlot.name = "$$" ∧ arity Fn.CHECK_LOCKTIME = (1, 0) :=
  ⟨by decide, rfl, rfl⟩

/-- Claim C5: the 2-of-3 multi-signature fixture compiles its
multi-signature check with the statically known required-count literal
`PushInt(2)` and total-key-count literal `PushInt(3)` bracketing the
signature and key `Get` lists — signatures, then 2, then keys, then 3,
then `Call(CHECKMULTISIG)`, `Call(REQUIRE)` — and the final surviving
slot-name list is exactly `[pk1, pk2, pk3, s1, s2]`. -/
theorem claim_c5_multisig_ir :
    compileContract multisigC =
      some (multisigIr, ["pk1", "pk2", "pk3", "s1", "s2"]) ∧
    arity (Fn.CHECKMULTISIG 2 3) = (7, 1) :=
  ⟨by decide, rfl⟩

/-- Claim C6, witness: reassigning declaration 2 to the value of
declaration 1 on the two-slot model emits `Get 0` then `Replace 1` —
the depth of declaration 2 before the push — and leaves the model
unchanged. -/
theorem claim_c6_replace_depth_witness :
    ([⟨some 1, "a"⟩, ⟨some 2, "b"⟩] : List Slot) = [⟨some 1, "a"⟩, ⟨some 2, "b"⟩] ∧
    ∃ d c, depthOf 2 [⟨some 1, "a"⟩, ⟨some 2, "b"⟩] = some d ∧
      ([Op.Get 0, Op.Replace 1] : List Op) = c ++ [Op.Replace d] :=
  claim_c6_replace_depth 1 2 (.varE 1) [⟨some 1, "a"⟩, ⟨some 2, "b"⟩]
    [Op.Get 0, Op.Replace 1] [⟨some 1, "a"⟩, ⟨some 2, "b"⟩] (by decide)

/-- Claim C7: the Optimizer is idempotent at its fixpoint: running the
length-bounded fixpoint pass and then running it again on its own
output changes nothing on the second run — indeed no rule fires at all
on the output of the first run. -/
theorem claim_c7_optimizer_idempotent (l : List Op) :
    optimize (optimize l) = optimize l ∧ scanIR (optimize l) = optimize l := by
  have hfix : scanIR (optimize l) = optimize l := optimizeFuel_fix l.length l le_rfl
  exact ⟨optimizeFuel_stable (optimize l).length (optimize l) hfix, hfix⟩

/-- Claim C8: the literal-push encoding round-trips: assembling any
integer (within the VM's number width), any byte string (within the
`PUSHDATA4` bound), or any boolean into its minimal-length push
encoding and disassembling that encoding recovers the original literal
exactly, including through the small-integer direct-opcode special
cases. -/
theorem claim_c8_literal_roundtrip (n : Int) (b : List Nat) (t : Bool)
    (hn : n.natAbs < 2 ^ 63) (hb : b.length < 2 ^ 32) :
    disassembleIntLit (assembleIntLit n) = some n ∧
    disassembleBytesLit (assembleBytesLit b) = some b ∧
    disassembleBoolLit (assembleBoolLit t) = some t := by
  have hint : disassembleIntLit (assembleIntLit n) = some n := by
    unfold assembleIntLit disassembleIntLit
    have hlen : (scriptNumEncode n).length < 4294967296 := by
      unfold scriptNumEncode
      by_cases h0 : n = 0
      · simp [h0]
      · rw [if_neg h0]
        have hlt : n.natAbs < 128 * 256 ^ 8 := by
          have : (2 : Nat) ^ 63 ≤ 128 * 256 ^ 8 := by norm_num
          omega
        have := scriptNumBytes_len 8 n.natAbs (decide (n < 0)) hlt
        omega
    rw [push_roundtrip _ hlen]
    simp [scriptNum_roundtrip]
  have hbool : disassembleBoolLit (assembleBoolLit t) = some t := by
    cases t <;>
      simp [assembleBoolLit, disassembleBoolLit, scriptNumEncode, scriptNumBytes,
        assemblePush, disassemblePush, scriptNumDecode, decodeGo]
  exact ⟨hint, push_roundtrip b (by simpa using hb), hbool⟩

/-- Claim C8, witness at a negative integer, a three-byte string and a
boolean. -/
theorem claim_c8_literal_roundtrip_witness :
    disassembleIntLit (assembleIntLit (-1000)) = some (-1000) ∧
    disassembleBytesLit (assembleBytesLit [1, 2, 3]) = some [1, 2, 3] ∧
    disassembleBoolLit (assembleBoolLit true) = some true :=
  claim_c8_literal_roundtrip (-1000) [1, 2, 3] true (by decide) (by decide)

/-- Claim C9: in every IR sequence the generator emits for a
successfully compiled fixture function, replaying the arity-table stack
effects from that function's seeded parameter stack keeps every depth
access in bounds — every `Get(d)` and `Replace(d)` addresses an
existing slot and every `Drop` and `Call` has its pop-count available —
and each function's body code occurs contiguously in the contract's
emitted sequence. -/
theorem claim_c9_replay_in_bounds :
    (allFixtures.all fun c => c.fns.all fun f =>
      match fnIr c f, compileContract c with
      | some code, some (ir, _) =>
          replayBoundedOk (fnSeed c f).length code && occursIn code ir
      | _, _ => false) = true := by decide

/-- Claim C10: every emitted fixture IR sequence has well-nested branch
markers: each `If` is closed by exactly one matching `EndIf`, at most
one `Else` occurs between a matching pair (an `If` may close with no
`Else` at all), and no `Else` or `EndIf` appears without an open
`If`. -/
theorem claim_c10_well_nested :
    (allFixtures.all fun c =>
      match compileContract c with
      | some (ir, _) => wellNestedOk ir
      | none => false) = true := by decide

end CashIR
